import Mathlib

/-!
Shallow embedding of the three trailing-comma–stripping scripts of the
repository (src/fix_all_trailing_commas.py, src/fix_json_commas.py,
src/fix_trailing_commas.py).  A line is modelled as a list of characters,
a document as a list of lines; the Python pipeline splits the file
content on the newline character, rewrites each line, and rejoins with
newlines.
-/

/-- A single line of the document, newline separator excluded. -/
abbrev Line := List Char

/-- Whitespace as stripped by Python `str.strip()` (the ASCII part of the
set: space, tab, newline, carriage return, vertical tab, form feed).
Lines obtained by splitting on a newline never contain a newline, so the
newline member is vacuous there. -/
def isPySpace (c : Char) : Bool :=
  c = ' ' || c = '\t' || c = '\n' || c = '\r' || c = Char.ofNat 11 || c = Char.ofNat 12

/-- Python `line.strip()`: remove leading and trailing whitespace. -/
def strip (l : Line) : Line :=
  ((l.dropWhile isPySpace).reverse.dropWhile isPySpace).reverse

/-- Python `line.strip().endswith(',')`. -/
def endsWithComma (l : Line) : Bool :=
  (strip l).getLast? = some ','

/-- Python `line.strip() == ''`: the line is blank. -/
def isBlank (l : Line) : Bool :=
  (strip l).isEmpty

/-- Python `re.sub(r',$', '', line)`: the pattern anchors at the end of
the string (lines carry no newline), so it removes the final character
exactly when that character is a comma, and otherwise changes nothing. -/
def subCommaEnd (l : Line) : Line :=
  if l.getLast? = some ',' then l.dropLast else l

/-- The scan `j = i + 1; while j < len(lines) and lines[j].strip() == '': j += 1`
followed by the bound check `j < len(lines)`: the first non-blank line of
the remaining suffix, if any. -/
def findNonBlank : List Line → Option Line
  | [] => none
  | l :: ls => if isBlank l then findNonBlank ls else some l

/-- Loop body of `fix_trailing_commas` in src/fix_all_trailing_commas.py
(lines 13-26): if the current line ends in a comma and the first
following non-blank line strips to `}`, substitute the trailing comma
away, else keep the line. -/
def fixLine (l : Line) (rest : List Line) : Line :=
  if endsWithComma l then
    match findNonBlank rest with
    | some nl => if strip nl = ['}'] then subCommaEnd l else l
    | none => l
  else l

/-- The while-loop of `fix_trailing_commas` in
src/fix_all_trailing_commas.py (lines 5-27): rewrite each line using the
suffix that follows it. -/
def fixLinesA : List Line → List Line
  | [] => []
  | l :: rest => fixLine l rest :: fixLinesA rest

/-- Loop body of `fix_trailing_commas` in src/fix_json_commas.py
(lines 12-27): same comma test, same skip of blank lines, the stripped
next line compared against `}`. -/
def fixLineB (l : Line) (rest : List Line) : Line :=
  if endsWithComma l then
    match findNonBlank rest with
    | some nl =>
        if strip nl = ['}'] then subCommaEnd l else l
    | none => l
  else l

/-- The for-loop of `fix_trailing_commas` in src/fix_json_commas.py
(lines 8-28). -/
def fixLinesB : List Line → List Line
  | [] => []
  | l :: rest => fixLineB l rest :: fixLinesB rest

/-- Loop body of `fix_trailing_commas` in src/fix_trailing_commas.py
(lines 14-19): `if i + 1 < len(lines) and line.strip().endswith(',') and
lines[i + 1].strip() == '}'` — only the immediately following line is
inspected, blank lines are not skipped. -/
def fixLineC (l : Line) (rest : List Line) : Line :=
  match rest with
  | next :: _ => if endsWithComma l && (strip next = ['}'] : Bool) then subCommaEnd l else l
  | [] => l

/-- The while-loop of `fix_trailing_commas` in src/fix_trailing_commas.py
(lines 7-21). -/
def fixLinesC : List Line → List Line
  | [] => []
  | l :: rest => fixLineC l rest :: fixLinesC rest

/-- Python `content.split('\n')` on a character sequence: split at every
newline, keeping empty pieces; the empty content yields one empty line. -/
def splitOnNl : List Char → List Line
  | [] => [[]]
  | c :: cs =>
    if c = '\n' then [] :: splitOnNl cs
    else
      match splitOnNl cs with
      | h :: t => (c :: h) :: t
      | [] => [[c]]

/-- Python `'\n'.join(fixed_lines)`. -/
def joinNl (ls : List Line) : List Char :=
  List.intercalate ['\n'] ls

/-- The whole transform of src/fix_all_trailing_commas.py: split, fix, join. -/
def fix_all_trailing_commas (content : List Char) : List Char :=
  joinNl (fixLinesA (splitOnNl content))

/-- The whole transform of src/fix_json_commas.py: split, fix, join. -/
def fix_json_commas (content : List Char) : List Char :=
  joinNl (fixLinesB (splitOnNl content))

/-- The whole transform of src/fix_trailing_commas.py: split, fix, join. -/
def fix_trailing_commas (content : List Char) : List Char :=
  joinNl (fixLinesC (splitOnNl content))

/-- Spec section 5 proviso, formalised: after a pass, no line both
qualifies for removal (ends in a comma with the next non-blank line a
bare closing brace) and actually carries a comma as its final character.
Such a residual pattern is exactly what makes a second pass act. -/
def noResidual : List Line → Bool
  | [] => true
  | l :: rest =>
    (!(endsWithComma l
        && (match findNonBlank rest with
            | some nl => (strip nl = ['}'] : Bool)
            | none => false)
        && (l.getLast? = some ',' : Bool)))
      && noResidual rest

theorem fixLineB_eq (l : Line) (rest : List Line) : fixLineB l rest = fixLine l rest := rfl

theorem fixLinesB_eq (ls : List Line) : fixLinesB ls = fixLinesA ls := by
  induction ls with
  | nil => rfl
  | cons l rest ih => simp [fixLinesA, fixLinesB, fixLineB_eq, ih]

theorem fixLinesA_length (ls : List Line) : (fixLinesA ls).length = ls.length := by
  induction ls with
  | nil => rfl
  | cons l rest ih => simp [fixLinesA, ih]

theorem fixLinesC_length (ls : List Line) : (fixLinesC ls).length = ls.length := by
  induction ls with
  | nil => rfl
  | cons l rest ih => simp [fixLinesC, ih]

theorem fixLinesA_getElem (ls : List Line) (i : Nat) :
    (fixLinesA ls)[i]? = (ls[i]?).map (fun l => fixLine l (ls.drop (i + 1))) := by
  induction ls generalizing i with
  | nil => simp [fixLinesA]
  | cons l rest ih =>
    cases i with
    | zero => simp [fixLinesA]
    | succ n => simpa [fixLinesA] using ih n

theorem fixLinesC_getElem (ls : List Line) (i : Nat) :
    (fixLinesC ls)[i]? = (ls[i]?).map (fun l => fixLineC l (ls.drop (i + 1))) := by
  induction ls generalizing i with
  | nil => simp [fixLinesC]
  | cons l rest ih =>
    cases i with
    | zero => simp [fixLinesC]
    | succ n => simpa [fixLinesC] using ih n

theorem findNonBlank_mem {ls : List Line} {nl : Line}
    (h : findNonBlank ls = some nl) : nl ∈ ls := by
  induction ls with
  | nil => simp [findNonBlank] at h
  | cons l rest ih =>
    by_cases hb : isBlank l = true
    · simp [findNonBlank, hb] at h
      exact List.mem_cons_of_mem _ (ih h)
    · simp [findNonBlank, hb] at h
      simp [h]

theorem subCommaEnd_of_ne {l : Line} (h : l.getLast? ≠ some ',') :
    subCommaEnd l = l := by
  simp [subCommaEnd, h]

theorem fixLine_keep {l : Line} {rest : List Line}
    (h : ∀ nl, findNonBlank rest = some nl → strip nl ≠ ['}']) :
    fixLine l rest = l := by
  unfold fixLine
  cases hf : findNonBlank rest with
  | none => simp
  | some nl => simp [h nl hf]

theorem fixLine_cases (l : Line) (rest : List Line) :
    fixLine l rest = l ∨
      (fixLine l rest = l.dropLast ∧ l.getLast? = some ',') := by
  unfold fixLine
  by_cases hc : endsWithComma l = true
  · cases hf : findNonBlank rest with
    | none => simp [hc]
    | some nl =>
      by_cases hb : strip nl = ['}']
      · by_cases hl : l.getLast? = some ','
        · right; simp [hc, hb, subCommaEnd, hl]
        · left; simp [hc, hb, subCommaEnd_of_ne hl]
      · left; simp [hc, hb]
  · left; simp [hc]

theorem fixLineC_cases (l : Line) (rest : List Line) :
    fixLineC l rest = l ∨
      (fixLineC l rest = l.dropLast ∧ l.getLast? = some ',') := by
  unfold fixLineC
  cases rest with
  | nil => left; rfl
  | cons next r =>
    by_cases hc : (endsWithComma l && (strip next = ['}'] : Bool)) = true
    · by_cases hl : l.getLast? = some ','
      · right; simp [hc, subCommaEnd, hl]
      · left; simp [hc, subCommaEnd_of_ne hl]
    · left; simp [hc]

theorem fixLine_of_not_comma {l : Line} (rest : List Line)
    (h : endsWithComma l = false) : fixLine l rest = l := by
  simp [fixLine, h]

theorem fixLineC_of_not_comma {l : Line} (rest : List Line)
    (h : endsWithComma l = false) : fixLineC l rest = l := by
  unfold fixLineC
  cases rest with
  | nil => rfl
  | cons next r => simp [h]

/-- C4: the transform never adds or removes a line — every variant's
output has exactly as many lines as its input, in the same order (the
order claim is subsumed by the positionwise theorems for C5/C10). -/
theorem c4_line_count (ls : List Line) :
    (fixLinesA ls).length = ls.length ∧
      (fixLinesB ls).length = ls.length ∧
      (fixLinesC ls).length = ls.length :=
  ⟨fixLinesA_length ls, by rw [fixLinesB_eq]; exact fixLinesA_length ls,
    fixLinesC_length ls⟩

theorem getElem_of_not_comma (ls : List Line) (i : Nat) (l : Line)
    (hget : ls[i]? = some l) (hc : endsWithComma l = false) :
    (fixLinesA ls)[i]? = some l ∧
      (fixLinesB ls)[i]? = some l ∧
      (fixLinesC ls)[i]? = some l := by
  refine ⟨?_, ?_, ?_⟩
  · rw [fixLinesA_getElem, hget, Option.map_some']
    rw [fixLine_of_not_comma _ hc]
  · rw [fixLinesB_eq, fixLinesA_getElem, hget, Option.map_some']
    rw [fixLine_of_not_comma _ hc]
  · rw [fixLinesC_getElem, hget, Option.map_some']
    rw [fixLineC_of_not_comma _ hc]

theorem endsWithComma_of_blank {l : Line} (hb : isBlank l = true) :
    endsWithComma l = false := by
  unfold isBlank at hb
  unfold endsWithComma
  cases hs : strip l with
  | nil => simp [hs]
  | cons c cs => rw [hs] at hb; simp at hb

/-- C5: a line whose trimmed content does not end with a comma is emitted
unchanged at its position, in all three variants. -/
theorem c5_non_comma_unchanged (ls : List Line) (i : Nat) (l : Line)
    (hget : ls[i]? = some l) (hc : endsWithComma l = false) :
    (fixLinesA ls)[i]? = some l ∧
      (fixLinesB ls)[i]? = some l ∧
      (fixLinesC ls)[i]? = some l :=
  getElem_of_not_comma ls i l hget hc

/-- Witness for C5 at a concrete document. -/
theorem c5_witness :
    (fixLinesA ["  a".data, "\x7d".data])[0]? = some ("  a".data) :=
  (c5_non_comma_unchanged ["  a".data, "\x7d".data] 0 ("  a".data) rfl (by decide)).1

/-- C7: a comma-terminated line with no subsequent line stripping to a
bare closing brace — in particular one with no following non-blank line
at all — is emitted unchanged; and the concrete document
["  \"foo\": 1,", "  \"bar\": 2"] passes through every variant unchanged. -/
theorem c7_no_brace_unchanged :
    (∀ (ls : List Line) (i : Nat) (l : Line), ls[i]? = some l →
        (∀ l' ∈ ls.drop (i + 1), strip l' ≠ ['}']) →
        (fixLinesA ls)[i]? = some l ∧
          (fixLinesB ls)[i]? = some l ∧
          (fixLinesC ls)[i]? = some l) ∧
      fixLinesA ["  \"foo\": 1,".data, "  \"bar\": 2".data]
          = ["  \"foo\": 1,".data, "  \"bar\": 2".data] ∧
      fixLinesB ["  \"foo\": 1,".data, "  \"bar\": 2".data]
          = ["  \"foo\": 1,".data, "  \"bar\": 2".data] ∧
      fixLinesC ["  \"foo\": 1,".data, "  \"bar\": 2".data]
          = ["  \"foo\": 1,".data, "  \"bar\": 2".data] := by
  refine ⟨?_, by decide, by decide, by decide⟩
  intro ls i l hget hnb
  have hkeep : fixLine l (ls.drop (i + 1)) = l :=
    fixLine_keep (fun nl hf => hnb nl (findNonBlank_mem hf))
  have hkeepC : fixLineC l (ls.drop (i + 1)) = l := by
    unfold fixLineC
    cases hd : ls.drop (i + 1) with
    | nil => rfl
    | cons next r =>
      have : strip next ≠ ['}'] := hnb next (by rw [hd]; exact List.mem_cons_self _ _)
      simp [this]
  refine ⟨?_, ?_, ?_⟩
  · rw [fixLinesA_getElem, hget, Option.map_some', hkeep]
  · rw [fixLinesB_eq, fixLinesA_getElem, hget, Option.map_some', hkeep]
  · rw [fixLinesC_getElem, hget, Option.map_some', hkeepC]

/-- Witness for C7's quantified part at a concrete document whose
comma-terminated line is the last line. -/
theorem c7_witness :
    (fixLinesA ["  \"foo\": 1,".data])[0]? = some ("  \"foo\": 1,".data) :=
  (c7_no_brace_unchanged.1 ["  \"foo\": 1,".data] 0 ("  \"foo\": 1,".data)
    rfl (by decide)).1

/-- C8: only a line stripping to exactly "\x7d" triggers removal: when the
first following non-blank line strips to anything else (such as "\x7d,"),
the comma line is emitted unchanged, and the concrete document
["  \"foo\": 1,", "\x7d,"] passes through unchanged in every variant. -/
theorem c8_strict_brace_match :
    (∀ (ls : List Line) (i : Nat) (l nl : Line), ls[i]? = some l →
        findNonBlank (ls.drop (i + 1)) = some nl → strip nl ≠ ['}'] →
        (fixLinesA ls)[i]? = some l ∧ (fixLinesB ls)[i]? = some l) ∧
      fixLinesA ["  \"foo\": 1,".data, "\x7d,".data]
          = ["  \"foo\": 1,".data, "\x7d,".data] ∧
      fixLinesB ["  \"foo\": 1,".data, "\x7d,".data]
          = ["  \"foo\": 1,".data, "\x7d,".data] ∧
      fixLinesC ["  \"foo\": 1,".data, "\x7d,".data]
          = ["  \"foo\": 1,".data, "\x7d,".data] := by
  refine ⟨?_, by decide, by decide, by decide⟩
  intro ls i l nl hget hf hne
  have hkeep : fixLine l (ls.drop (i + 1)) = l := by
    unfold fixLine
    simp [hf, hne]
  constructor
  · rw [fixLinesA_getElem, hget, Option.map_some', hkeep]
  · rw [fixLinesB_eq, fixLinesA_getElem, hget, Option.map_some', hkeep]

/-- Witness for C8's quantified part at the concrete document of spec
scenario 4. -/
theorem c8_witness :
    (fixLinesA ["  \"foo\": 1,".data, "\x7d,".data])[0]? = some ("  \"foo\": 1,".data) :=
  (c8_strict_brace_match.1 ["  \"foo\": 1,".data, "\x7d,".data] 0
    ("  \"foo\": 1,".data) ("\x7d,".data) rfl rfl (by decide)).1

theorem fixLinesA_noop (ls : List Line)
    (h : ∀ l ∈ ls, endsWithComma l = false) : fixLinesA ls = ls := by
  induction ls with
  | nil => rfl
  | cons l rest ih =>
    have hl := h l (List.mem_cons_self _ _)
    have hrest : ∀ l' ∈ rest, endsWithComma l' = false :=
      fun l' hm => h l' (List.mem_cons_of_mem _ hm)
    simp [fixLinesA, fixLine_of_not_comma _ hl, ih hrest]

theorem fixLinesC_noop (ls : List Line)
    (h : ∀ l ∈ ls, endsWithComma l = false) : fixLinesC ls = ls := by
  induction ls with
  | nil => rfl
  | cons l rest ih =>
    have hl := h l (List.mem_cons_self _ _)
    have hrest : ∀ l' ∈ rest, endsWithComma l' = false :=
      fun l' hm => h l' (List.mem_cons_of_mem _ hm)
    simp [fixLinesC, fixLineC_of_not_comma _ hl, ih hrest]

/-- C9: every variant is a total function of the document (each is a
structurally recursive Lean definition with no failing branch), and on a
document with no qualifying pattern — no line ending in a comma — each
variant is a no-op. -/
theorem c9_total_noop (ls : List Line)
    (h : ∀ l ∈ ls, endsWithComma l = false) :
    fixLinesA ls = ls ∧ fixLinesB ls = ls ∧ fixLinesC ls = ls := by
  have hA : fixLinesA ls = ls := fixLinesA_noop ls h
  exact ⟨hA, by rw [fixLinesB_eq]; exact hA, fixLinesC_noop ls h⟩

/-- Witness for C9 at a concrete document without trailing commas. -/
theorem c9_witness :
    fixLinesA ["\x7b".data, "  \"a\": 1".data, "\x7d".data]
      = ["\x7b".data, "  \"a\": 1".data, "\x7d".data] :=
  (c9_total_noop ["\x7b".data, "  \"a\": 1".data, "\x7d".data] (by decide)).1

/-- C10: positionwise, each output line of every variant is either the
input line unchanged or the input line with exactly its final character
removed, that character being a comma; consequently a line whose
trailing comma is followed by trailing whitespace (final character not a
comma) is emitted unchanged. -/
theorem c10_at_most_final_comma (ls : List Line) (i : Nat) (l : Line)
    (hget : ls[i]? = some l) :
    ((fixLinesA ls)[i]? = some l ∨
        ((fixLinesA ls)[i]? = some l.dropLast ∧ l.getLast? = some ',')) ∧
      ((fixLinesB ls)[i]? = some l ∨
        ((fixLinesB ls)[i]? = some l.dropLast ∧ l.getLast? = some ',')) ∧
      ((fixLinesC ls)[i]? = some l ∨
        ((fixLinesC ls)[i]? = some l.dropLast ∧ l.getLast? = some ',')) ∧
      (l.getLast? ≠ some ',' →
        (fixLinesA ls)[i]? = some l ∧ (fixLinesB ls)[i]? = some l ∧
          (fixLinesC ls)[i]? = some l) := by
  have hA : (fixLinesA ls)[i]? = some l ∨
      ((fixLinesA ls)[i]? = some l.dropLast ∧ l.getLast? = some ',') := by
    rw [fixLinesA_getElem, hget, Option.map_some']
    rcases fixLine_cases l (ls.drop (i + 1)) with h | ⟨h1, h2⟩
    · left; rw [h]
    · right; exact ⟨by rw [h1], h2⟩
  have hC : (fixLinesC ls)[i]? = some l ∨
      ((fixLinesC ls)[i]? = some l.dropLast ∧ l.getLast? = some ',') := by
    rw [fixLinesC_getElem, hget, Option.map_some']
    rcases fixLineC_cases l (ls.drop (i + 1)) with h | ⟨h1, h2⟩
    · left; rw [h]
    · right; exact ⟨by rw [h1], h2⟩
  have hB : (fixLinesB ls)[i]? = some l ∨
      ((fixLinesB ls)[i]? = some l.dropLast ∧ l.getLast? = some ',') := by
    rw [fixLinesB_eq]; exact hA
  refine ⟨hA, hB, hC, fun hne => ⟨?_, ?_, ?_⟩⟩
  · rcases hA with h | ⟨_, h2⟩
    · exact h
    · exact absurd h2 hne
  · rcases hB with h | ⟨_, h2⟩
    · exact h
    · exact absurd h2 hne
  · rcases hC with h | ⟨_, h2⟩
    · exact h
    · exact absurd h2 hne

/-- Witness for C10 at the line "a, " whose comma is followed by a
trailing space: every variant leaves it unchanged. -/
theorem c10_witness :
    (fixLinesA ["a, ".data, "\x7d".data])[0]? = some ("a, ".data) :=
  ((c10_at_most_final_comma ["a, ".data, "\x7d".data] 0 ("a, ".data) rfl).2.2.2
    (by decide)).1

/-- C1 fails as stated: on the document ["a, ", "\x7d"] the first line ends
in a comma after right-trimming and the next non-blank line strips to a
bare brace, yet the output is not the line with the comma removed and
the trailing space preserved — the substitution `,$` does not match, so
the line is emitted unchanged. -/
theorem c1_counterexample :
    fixLinesA ["a, ".data, "\x7d".data] ≠ ["a ".data, "\x7d".data] ∧
      fixLinesA ["a, ".data, "\x7d".data] = ["a, ".data, "\x7d".data] := by
  constructor
  · decide
  · decide

/-- C1 amended: for a line ending in a comma after trimming whose next
non-blank line strips to "\x7d", the output line is the input line with its
final character removed when that final character is the comma, and the
input line unchanged otherwise (comma followed by trailing whitespace). -/
theorem c1_amended_comma_removal (ls : List Line) (i : Nat) (l : Line)
    (hget : ls[i]? = some l) (hc : endsWithComma l = true)
    (hbrace : ∃ nl, findNonBlank (ls.drop (i + 1)) = some nl ∧ strip nl = ['}']) :
    (fixLinesA ls)[i]? =
      some (if l.getLast? = some ',' then l.dropLast else l) := by
  obtain ⟨nl, hf, hs⟩ := hbrace
  rw [fixLinesA_getElem, hget, Option.map_some']
  unfold fixLine
  simp [hc, hf, hs, subCommaEnd]

/-- Witness for the amended C1 at a line whose comma is its final
character. -/
theorem c1_witness :
    (fixLinesA ["  a,".data, "\x7d".data])[0]? = some ("  a".data) := by
  have h := c1_amended_comma_removal ["  a,".data, "\x7d".data] 0 ("  a,".data)
    rfl (by decide) ⟨"\x7d".data, rfl, by decide⟩
  rw [h]
  decide

/-- C2 fails as stated: on the content "a,\n\n\x7d" the blank-skipping
variants remove the comma while src/fix_trailing_commas.py, which only
inspects the immediately following line, does not. -/
theorem c2_counterexample :
    fix_all_trailing_commas ("a,\n\n\x7d".data) ≠ fix_trailing_commas ("a,\n\n\x7d".data) := by
  decide

/-- C2 amended: src/fix_all_trailing_commas.py and src/fix_json_commas.py
are functionally equivalent on every input; src/fix_trailing_commas.py
coincides with them on documents containing no blank line but differs in
general. -/
theorem c2_amended_equivalence :
    (∀ content : List Char,
        fix_json_commas content = fix_all_trailing_commas content) ∧
      ∀ ls : List Line, (∀ l ∈ ls, isBlank l = false) →
        fixLinesC ls = fixLinesA ls := by
  constructor
  · intro content
    unfold fix_json_commas fix_all_trailing_commas
    rw [fixLinesB_eq]
  · intro ls h
    induction ls with
    | nil => rfl
    | cons l rest ih =>
      have hrest : ∀ l' ∈ rest, isBlank l' = false :=
        fun l' hm => h l' (List.mem_cons_of_mem _ hm)
      have hhead : fixLineC l rest = fixLine l rest := by
        cases rest with
        | nil => simp [fixLineC, fixLine, findNonBlank]
        | cons next r =>
          have hnb : isBlank next = false :=
            h next (List.mem_cons_of_mem _ (List.mem_cons_self _ _))
          by_cases hc : endsWithComma l = true
          · simp [fixLineC, fixLine, findNonBlank, hnb, hc]
          · simp [fixLineC, fixLine, findNonBlank, hnb, hc]
      simp [fixLinesA, fixLinesC, hhead, ih hrest]

/-- Witness for the amended C2's conditional part on a blank-free
document. -/
theorem c2_witness :
    fixLinesC ["a,".data, "\x7d".data] = fixLinesA ["a,".data, "\x7d".data] :=
  c2_amended_equivalence.2 ["a,".data, "\x7d".data] (by decide)

/-- C3 fails as stated: on "x,,\n\x7d" one pass halves the double comma to
"x," which still ends in a comma before the bare brace, so the second
pass removes another character. -/
theorem c3_counterexample :
    fix_all_trailing_commas (fix_all_trailing_commas ("x,,\n\x7d".data))
      ≠ fix_all_trailing_commas ("x,,\n\x7d".data) := by
  decide

theorem noResidual_fix (ys : List Line) (h : noResidual ys = true) :
    fixLinesA ys = ys := by
  induction ys with
  | nil => rfl
  | cons l rest ih =>
    unfold noResidual at h
    rw [Bool.and_eq_true] at h
    obtain ⟨h1, h2⟩ := h
    have hl : fixLine l rest = l := by
      unfold fixLine
      by_cases hc : endsWithComma l = true
      · cases hf : findNonBlank rest with
        | none => simp [hc]
        | some nl =>
          by_cases hb : strip nl = ['}']
          · have hlast : l.getLast? ≠ some ',' := by
              intro hlast
              rw [hc, hf] at h1
              simp [hb, hlast] at h1
            simp [hc, hb, subCommaEnd_of_ne hlast]
          · simp [hc, hb]
      · simp [hc]
    simp [fixLinesA, hl, ih h2]

/-- C3 amended: a second pass changes nothing provided the first pass's
output has no residual qualifying pattern — no line that both ends in a
comma with the next non-blank line a bare closing brace and carries the
comma as its final character.  The transform can create such patterns
(halving a comma run, blanking a lone-comma line, or turning "\x7d,", into
"\x7d"), so the unconditional statement fails. -/
theorem c3_amended_idempotent (ls : List Line)
    (h : noResidual (fixLinesA ls) = true) :
    fixLinesA (fixLinesA ls) = fixLinesA ls :=
  noResidual_fix _ h

/-- Witness for the amended C3 on a document whose single pass leaves no
residual pattern. -/
theorem c3_witness :
    fixLinesA (fixLinesA ["a,".data, "\x7d".data]) = fixLinesA ["a,".data, "\x7d".data] :=
  c3_amended_idempotent ["a,".data, "\x7d".data] (by decide)

/-- C6 fails as stated for src/fix_trailing_commas.py: that variant does
not skip the blank line, so on spec scenario 2 it leaves the comma in
place. -/
theorem c6_counterexample :
    fixLinesC ["  \"foo\": 1,".data, "".data, "\x7d".data]
      ≠ ["  \"foo\": 1".data, "".data, "\x7d".data] := by
  decide

/-- C6 amended: blank lines are skipped by the lookahead of
src/fix_all_trailing_commas.py and src/fix_json_commas.py and are
themselves emitted unchanged (in every variant); scenario 2 holds for
those two variants, while src/fix_trailing_commas.py inspects only the
immediately following line and leaves scenario 2's input unchanged. -/
theorem c6_amended_blank_skip :
    (∀ (ls : List Line) (i : Nat) (l : Line), ls[i]? = some l →
        isBlank l = true →
        (fixLinesA ls)[i]? = some l ∧ (fixLinesB ls)[i]? = some l ∧
          (fixLinesC ls)[i]? = some l) ∧
      fixLinesA ["  \"foo\": 1,".data, "".data, "\x7d".data]
          = ["  \"foo\": 1".data, "".data, "\x7d".data] ∧
      fixLinesB ["  \"foo\": 1,".data, "".data, "\x7d".data]
          = ["  \"foo\": 1".data, "".data, "\x7d".data] ∧
      fixLinesC ["  \"foo\": 1,".data, "".data, "\x7d".data]
          = ["  \"foo\": 1,".data, "".data, "\x7d".data] := by
  refine ⟨?_, by decide, by decide, by decide⟩
  intro ls i l hget hb
  exact getElem_of_not_comma ls i l hget (endsWithComma_of_blank hb)

/-- Witness for the amended C6's quantified part at the blank middle
line of scenario 2. -/
theorem c6_witness :
    (fixLinesA ["  \"foo\": 1,".data, "".data, "\x7d".data])[1]? = some ("".data) :=
  (c6_amended_blank_skip.1 ["  \"foo\": 1,".data, "".data, "\x7d".data] 1
    ("".data) rfl (by decide)).1
